import Mathlib

/-!
Shallow embedding of the game-tree search core of `wongs-game-solver`
(`src/main.rs`): board state, move generation, static evaluation, and the
minimax / negamax / alpha-beta-negamax search family, together with proofs
about the properties the specification states for them.

Machine integers are modelled as `Int`; the only place where `i32` overflow
is reachable is the negation of the alpha-beta window bounds inside
`abnegamax` (which starts from `i32::MIN`), so that negation is modelled with
explicit two's-complement wraparound (`wneg`), while all other arithmetic
(board counts bounded by 81) stays exact.
-/

namespace Wongs

def TABLE_SIZE : Nat := 9

def TABLE_SIZE_MINUS_ONE : Int := (TABLE_SIZE : Int) - 1

inductive Color where
  | Empty : Color
  | Black : Color
  | White : Color
deriving DecidableEq, Repr

abbrev Position := Nat × Nat

/-- The board: `table[x][y]` for `x, y < TABLE_SIZE`.  Modelled as a total
function; only indices below `TABLE_SIZE` are ever read through the in-range
accessors. -/
structure State where
  table : Nat → Nat → Color

/-- Row-major enumeration of all grid coordinates, as produced by
`(0..TABLE_SIZE).cartesian_product(0..TABLE_SIZE)`. -/
def cells : List Position :=
  (List.range TABLE_SIZE).flatMap (fun x => (List.range TABLE_SIZE).map (fun y => (x, y)))

def State.new : State := ⟨fun _ _ => Color.Empty⟩

def State.place (s : State) (x y : Nat) (color : Color) : State :=
  ⟨fun i j => if i = x ∧ j = y then color else s.table i j⟩

def State.withPos (s : State) (pos : Position) (color : Color) : State :=
  s.place pos.1 pos.2 color

def State.get_field (s : State) (x y : Int) : Option Color :=
  if x < 0 ∨ x > TABLE_SIZE_MINUS_ONE ∨ y < 0 ∨ y > TABLE_SIZE_MINUS_ONE then
    none
  else
    some (s.table x.toNat y.toNat)

/-- The source's two offset lists (the variable called `ortho` in the source
actually holds the diagonal offsets and vice versa; we keep the source's
lists verbatim). -/
def orthoOffsets : List (Int × Int) := [(-1, -1), (-1, 1), (1, -1), (1, 1)]

def diagonalOffsets : List (Int × Int) := [(-1, 0), (1, 0), (0, -1), (0, 1)]

def State.neighborMatches (s : State) (x y : Nat) (color : Color)
    (offsets : List (Int × Int)) : Nat :=
  ((offsets.filterMap
      (fun coords => s.get_field (coords.1 + (x : Int)) (coords.2 + (y : Int)))).filter
    (fun clr => decide (clr = color))).length

def State.have_adjacment (s : State) (x y : Nat) (color : Color) : Bool :=
  let ortho := s.neighborMatches x y color orthoOffsets
  let diagonal := s.neighborMatches x y color diagonalOffsets
  (decide (ortho ≥ 2) || decide (diagonal ≥ 2)) && decide (s.table x y = Color.Empty)

def State.possible_places (s : State) : List Position :=
  cells.filter (fun p => decide (s.table p.1 p.2 = Color.Empty))

def State.possible_grows (s : State) (color : Color) : List Position :=
  cells.filter (fun p => s.have_adjacment p.1 p.2 color)

def State.is_finished (s : State) : Bool :=
  decide ((s.possible_grows Color.Black).length = 0) &&
    decide ((s.possible_grows Color.White).length = 0)

/-- One step of the `for i { for j { ... } }` accumulation in `cost`:
occupied cells count 1 toward their owner, Empty cells count 1 toward each
side for which they are growable. -/
def costStep (s : State) (wb : Int × Int) (p : Position) : Int × Int :=
  match s.table p.1 p.2 with
  | Color.White => (wb.1 + 1, wb.2)
  | Color.Black => (wb.1, wb.2 + 1)
  | Color.Empty =>
    ((if s.have_adjacment p.1 p.2 Color.White then wb.1 + 1 else wb.1),
     (if s.have_adjacment p.1 p.2 Color.Black then wb.2 + 1 else wb.2))

def State.cost (s : State) : Int :=
  let wb := cells.foldl (costStep s) ((0 : Int), (0 : Int))
  wb.1 - wb.2

structure Node where
  state : State

def Node.withPos (n : Node) (pos : Position) (color : Color) : Node :=
  ⟨n.state.withPos pos color⟩

def Node.cost (n : Node) : Int := n.state.cost

def Node.minimax : Node → Nat → Bool → Int
  | n, 0, _ => n.cost
  | n, depth + 1, mx =>
    if n.state.is_finished then n.cost
    else if mx then
      (((n.state.possible_grows Color.White).map
          (fun pos => (Node.mk (n.state.place pos.1 pos.2 Color.White)).minimax depth false)).max?).getD
        n.cost
    else
      (((n.state.possible_grows Color.Black).map
          (fun pos => (Node.mk (n.state.place pos.1 pos.2 Color.Black)).minimax depth true)).min?).getD
        n.cost

def Node.negamax : Node → Nat → Int → Int
  | n, 0, sign => sign * n.cost
  | n, depth + 1, sign =>
    (((n.state.possible_grows (if sign = 1 then Color.White else Color.Black)).map
        (fun pos =>
          -((n.withPos pos (if sign = 1 then Color.White else Color.Black)).negamax depth
              (-sign)))).max?).getD
      n.cost

def i32MIN : Int := -(2 ^ 31)

def i32MAX : Int := 2 ^ 31 - 1

/-- Two's-complement wraparound of an `Int` into the `i32` range. -/
def wrap32 (z : Int) : Int := (z + 2 ^ 31) % 2 ^ 32 - 2 ^ 31

/-- `i32` negation with two's-complement wraparound (release-mode Rust
semantics of `-x`). -/
def wneg (z : Int) : Int := wrap32 (-z)

/-- The `(alpha, beta)` window `abnegamax` passes to each recursive call:
the source writes `(-alpha, -beta)` (not the negated-and-swapped
`(-beta, -alpha)` of standard alpha-beta). -/
def abChildWindow (alpha beta : Int) : Int × Int := (wneg alpha, wneg beta)

/-- The `for pos in ... { alpha = alpha.max(...); if alpha >= beta { return alpha } }`
loop body of `abnegamax`, with the recursion at the next depth abstracted as
`child`. -/
def Node.abloop (child : Node → Int → Int → Int → Int) (n : Node) (beta sign : Int) :
    List Position → Int → Int
  | [], alpha => alpha
  | pos :: rest, alpha =>
    let w := abChildWindow alpha beta
    let a :=
      max alpha
        (wneg (child (n.withPos pos (if sign = 1 then Color.White else Color.Black)) w.1 w.2
            (-sign)))
    if a ≥ beta then a else Node.abloop child n beta sign rest a

def Node.abnegamax : Node → Nat → Int → Int → Int → Int
  | n, 0, _, _, _ => n.cost
  | n, depth + 1, alpha, beta, sign =>
    Node.abloop (fun m a b sg => Node.abnegamax m depth a b sg) n beta sign
      (n.state.possible_grows (if sign = 1 then Color.White else Color.Black)) alpha

def Node.get_optimal_moves (n : Node) (depth : Nat) : List (Int × Position) :=
  let foo : List (Int × Position) :=
    (n.state.possible_grows Color.White).map
      (fun pos => ((n.withPos pos Color.White).abnegamax (depth - 1) i32MIN i32MAX (-1), pos))
  let sorted := foo.mergeSort (fun a b => decide (b.1 ≤ a.1))
  sorted.take 5

/-- Concrete board: White stones at `(0,0)` and `(0,2)`, everything else
Empty. -/
def s0 : State := (State.new.place 0 0 Color.White).place 0 2 Color.White

def n0 : Node := ⟨s0⟩

/-- Concrete board: Black stones at `(0,0)` and `(0,2)`, everything else
Empty. -/
def b0 : State := (State.new.place 0 0 Color.Black).place 0 2 Color.Black

/-- Concrete board: White stones at `(0,0)` and `(0,1)`, everything else
Empty.  The cell `(1,1)` has exactly one orthogonal and one diagonal White
neighbor here. -/
def s1 : State := (State.new.place 0 0 Color.White).place 0 1 Color.White

/-! ### Spec-side observation functions -/

/-- The four orthogonal neighbor offsets, as the claim's words describe
them. -/
def orthogonalNeighborOffsets : List (Int × Int) := [(-1, 0), (1, 0), (0, -1), (0, 1)]

/-- The four diagonal neighbor offsets, as the claim's words describe them. -/
def diagonalNeighborOffsets : List (Int × Int) := [(-1, -1), (-1, 1), (1, -1), (1, 1)]

/-- How many of the four orthogonal neighbors of `(x, y)` hold `c`;
out-of-bounds offsets contribute nothing. -/
def orthCount (s : State) (x y : Nat) (c : Color) : Nat :=
  orthogonalNeighborOffsets.countP
    (fun o => decide (s.get_field (o.1 + (x : Int)) (o.2 + (y : Int)) = some c))

/-- How many of the four diagonal neighbors of `(x, y)` hold `c`;
out-of-bounds offsets contribute nothing. -/
def diagCount (s : State) (x y : Nat) (c : Color) : Nat :=
  diagonalNeighborOffsets.countP
    (fun o => decide (s.get_field (o.1 + (x : Int)) (o.2 + (y : Int)) = some c))

/-- A cell counts toward White's side of the evaluation iff it holds a White
stone or is growable for White. -/
def countsTowardA (s : State) (p : Position) : Bool :=
  decide (s.table p.1 p.2 = Color.White) || s.have_adjacment p.1 p.2 Color.White

/-- A cell counts toward Black's side of the evaluation iff it holds a Black
stone or is growable for Black. -/
def countsTowardB (s : State) (p : Position) : Bool :=
  decide (s.table p.1 p.2 = Color.Black) || s.have_adjacment p.1 p.2 Color.Black

def countA (s : State) : Nat := (cells.filter (countsTowardA s)).length

def countB (s : State) : Nat := (cells.filter (countsTowardB s)).length

/-- Number of cells of the grid holding color `c`. -/
def countColor (s : State) (c : Color) : Nat :=
  cells.countP (fun p => decide (s.table p.1 p.2 = c))

/-- Model of `SliceRandom::choose`: `None` exactly when the slice is empty,
otherwise an element of the slice, selected by the externally supplied
random index `k`. -/
def choose (l : List Position) (k : Nat) : Option Position :=
  if l.isEmpty then none else l[k % l.length]?

/-- The `for _ in 0..TABLE_SIZE_MINUS_ONE` loop of `Node::random`: each
iteration places White and then Black on a cell chosen among the Empty
cells; the random choices are supplied by the stream `pick`, and a failed
`choose` (whose `unwrap` would panic) is modelled as `none`. -/
def randomLoop (pick : Nat → Nat) : Nat → Nat → State → Option State
  | 0, _, s => some s
  | k + 1, step, s =>
    match choose s.possible_places (pick step) with
    | none => none
    | some white_chos =>
      let s1 := s.place white_chos.1 white_chos.2 Color.White
      match choose s1.possible_places (pick (step + 1)) with
      | none => none
      | some black_chos =>
        randomLoop pick k (step + 2) (s1.place black_chos.1 black_chos.2 Color.Black)

def Node.random (pick : Nat → Nat) : Option Node :=
  (randomLoop pick (TABLE_SIZE - 1) 0 State.new).map Node.mk

/-! ### Helper lemmas -/

theorem neighborMatches_eq_countP (s : State) (x y : Nat) (c : Color)
    (offsets : List (Int × Int)) :
    s.neighborMatches x y c offsets =
      offsets.countP
        (fun o => decide (s.get_field (o.1 + (x : Int)) (o.2 + (y : Int)) = some c)) := by
  induction offsets with
  | nil => rfl
  | cons o rest ih =>
    simp only [State.neighborMatches, List.filterMap_cons, List.countP_cons] at *
    cases h : s.get_field (o.1 + (x : Int)) (o.2 + (y : Int)) with
    | none => simpa [h] using ih
    | some clr =>
      by_cases hc : clr = c
      · subst hc; simp [h, List.filter_cons, ih]
      · simp [h, List.filter_cons, hc, ih]

theorem mem_cells {x y : Nat} : (x, y) ∈ cells ↔ x < TABLE_SIZE ∧ y < TABLE_SIZE := by
  simp [cells, List.mem_flatMap, List.mem_map, List.mem_range]

theorem costStep_foldl (s : State) (l : List Position) :
    ∀ w b : Int,
      l.foldl (costStep s) (w, b) =
        (w + l.countP (countsTowardA s), b + l.countP (countsTowardB s)) := by
  induction l with
  | nil => intro w b; simp
  | cons p rest ih =>
    intro w b
    rw [List.foldl_cons]
    cases h : s.table p.1 p.2 with
    | White =>
      have hstep : costStep s (w, b) p = (w + 1, b) := by simp [costStep, h]
      have hA : countsTowardA s p = true := by simp [countsTowardA, h]
      have hB : countsTowardB s p = false := by
        simp [countsTowardB, State.have_adjacment, h]
      rw [hstep, ih, List.countP_cons, List.countP_cons, hA, hB]
      simp only [Prod.mk.injEq, if_true, if_false, ite_true, ite_false, Bool.false_eq_true,
        reduceIte]
      omega
    | Black =>
      have hstep : costStep s (w, b) p = (w, b + 1) := by simp [costStep, h]
      have hA : countsTowardA s p = false := by
        simp [countsTowardA, State.have_adjacment, h]
      have hB : countsTowardB s p = true := by simp [countsTowardB, h]
      rw [hstep, ih, List.countP_cons, List.countP_cons, hA, hB]
      simp only [Prod.mk.injEq, if_true, if_false, ite_true, ite_false, Bool.false_eq_true,
        reduceIte]
      omega
    | Empty =>
      have hstep : costStep s (w, b) p =
          ((if s.have_adjacment p.1 p.2 Color.White then w + 1 else w),
           (if s.have_adjacment p.1 p.2 Color.Black then b + 1 else b)) := by
        simp [costStep, h]
      have hA : countsTowardA s p = s.have_adjacment p.1 p.2 Color.White := by
        simp [countsTowardA, h]
      have hB : countsTowardB s p = s.have_adjacment p.1 p.2 Color.Black := by
        simp [countsTowardB, h]
      rw [hstep, List.countP_cons, List.countP_cons, hA, hB]
      cases hw : s.have_adjacment p.1 p.2 Color.White <;>
        cases hb : s.have_adjacment p.1 p.2 Color.Black <;>
          simp only [hw, hb, Bool.false_eq_true, if_true, if_false, ite_true, ite_false] <;>
            rw [ih] <;> simp only [Prod.mk.injEq] <;> omega

/-! ### C3: characterization of the legal-move generator -/

/-- C3: `possible_grows(color)` contains exactly the in-range Empty cells
with at least 2 orthogonal or at least 2 diagonal neighbors of that color
(the threshold applied separately to each neighbor set); in particular a
cell with exactly one orthogonal and one diagonal same-color neighbor is not
included. -/
theorem possible_grows_characterization :
    (∀ (s : State) (c : Color) (x y : Nat),
        (x, y) ∈ s.possible_grows c ↔
          x < TABLE_SIZE ∧ y < TABLE_SIZE ∧ s.table x y = Color.Empty ∧
            (2 ≤ orthCount s x y c ∨ 2 ≤ diagCount s x y c)) ∧
      ∀ (s : State) (c : Color) (x y : Nat),
        orthCount s x y c = 1 → diagCount s x y c = 1 → (x, y) ∉ s.possible_grows c := by
  have main : ∀ (s : State) (c : Color) (x y : Nat),
      (x, y) ∈ s.possible_grows c ↔
        x < TABLE_SIZE ∧ y < TABLE_SIZE ∧ s.table x y = Color.Empty ∧
          (2 ≤ orthCount s x y c ∨ 2 ≤ diagCount s x y c) := by
    intro s c x y
    rw [State.possible_grows, List.mem_filter, mem_cells]
    have horth : s.neighborMatches x y c orthoOffsets = diagCount s x y c :=
      neighborMatches_eq_countP s x y c orthoOffsets
    have hdiag : s.neighborMatches x y c diagonalOffsets = orthCount s x y c :=
      neighborMatches_eq_countP s x y c diagonalOffsets
    simp only [State.have_adjacment, horth, hdiag, Bool.and_eq_true, Bool.or_eq_true,
      decide_eq_true_eq]
    tauto
  refine ⟨main, ?_⟩
  intro s c x y h1 h2 hmem
  have h := (main s c x y).mp hmem
  omega

/-- Witness for C3 at concrete inputs: the characterization instantiated at
`s0` and cell `(0,1)`, and the exactly-one-of-each exclusion at `s1` and
cell `(1,1)`. -/
theorem possible_grows_characterization_witness :
    ((0, 1) ∈ s0.possible_grows Color.White ↔
        0 < TABLE_SIZE ∧ 1 < TABLE_SIZE ∧ s0.table 0 1 = Color.Empty ∧
          (2 ≤ orthCount s0 0 1 Color.White ∨ 2 ≤ diagCount s0 0 1 Color.White)) ∧
      orthCount s1 1 1 Color.White = 1 ∧ diagCount s1 1 1 Color.White = 1 ∧
        (1, 1) ∉ s1.possible_grows Color.White :=
  ⟨possible_grows_characterization.1 s0 Color.White 0 1, by decide, by decide,
    possible_grows_characterization.2 s1 Color.White 1 1 (by decide) (by decide)⟩

/-! ### C4: the static evaluation -/

/-- C4: `cost()` equals `countA − countB`, where a cell counts toward a side
iff it holds that side's stone or is an Empty cell growable for that side;
and the all-Empty board evaluates to 0. -/
theorem cost_eq_countA_sub_countB :
    (∀ s : State, s.cost = (countA s : Int) - (countB s : Int)) ∧ State.new.cost = 0 := by
  constructor
  · intro s
    simp only [State.cost]
    rw [costStep_foldl s cells 0 0]
    simp only [countA, countB, List.countP_eq_length_filter]
    ring
  · decide

/-! ### C1 / C2: divergence of the search formulations -/

/-- C1: the claim that `minimax(depth, true)` and `negamax(depth, +1)` agree
bit-for-bit on every position and depth fails on the code: on the board with
White at `(0,0)` and `(0,2)` and depth 2, `minimax` returns 6 while `negamax`
returns -4 (the no-moves fallback of `negamax` returns `cost()` without the
`sign` factor, so dead-end nodes of the minimizing side contribute with the
wrong sign). -/
theorem minimax_negamax_disagree_on_s0 :
    Node.minimax n0 2 true = 6 ∧ Node.negamax n0 2 1 = -4 ∧
      Node.minimax n0 2 true ≠ Node.negamax n0 2 1 := by
  refine ⟨by decide, by decide, by decide⟩

/-- C2: the claim that `abnegamax(depth, i32::MIN, i32::MAX, +1)` equals
`negamax(depth, +1)` on every position and depth fails on the code: on the
board with White at `(0,0)` and `(0,2)` and depth 1, `abnegamax` returns -4
while `negamax` returns 6 (`abnegamax` returns `cost()` at depth 0 regardless
of `sign`, and passes the window `(-alpha, -beta)` instead of the
negated-and-swapped `(-beta, -alpha)`). -/
theorem abnegamax_negamax_disagree_on_s0 :
    Node.abnegamax n0 1 i32MIN i32MAX 1 = -4 ∧ Node.negamax n0 1 1 = 6 ∧
      Node.abnegamax n0 1 i32MIN i32MAX 1 ≠ Node.negamax n0 1 1 := by
  refine ⟨by decide, by decide, by decide⟩

/-! ### C9: wraparound of the alpha-beta window negation -/

/-- C9: with `alpha = i32::MIN` (the root window of every `get_optimal_moves`
search), the `-alpha` computed for the recursive `abnegamax` call wraps to
`i32::MIN` again under two's-complement semantics, and the window actually
passed to the child, `(-alpha, -beta)`, is not the negated-and-swapped parent
window `(-beta, -alpha)`. -/
theorem abnegamax_window_negation_wraps :
    wneg i32MIN = i32MIN ∧
      abChildWindow i32MIN i32MAX = (i32MIN, wneg i32MAX) ∧
      abChildWindow i32MIN i32MAX ≠ (wneg i32MAX, wneg i32MIN) := by
  refine ⟨by decide, by decide, by decide⟩

/-! ### C7: side to move without legal moves -/

/-- C7: if the side to move has no legal moves while the other side has at
least one, the position is not terminal and `minimax` (depth ≥ 1) falls back
to the static evaluation `cost()` of the node. -/
theorem minimax_side_without_moves (n : Node) (depth : Nat) (mx : Bool)
    (hd : 1 ≤ depth)
    (h1 : n.state.possible_grows (if mx then Color.White else Color.Black) = [])
    (h2 : n.state.possible_grows (if mx then Color.Black else Color.White) ≠ []) :
    n.state.is_finished = false ∧ n.minimax depth mx = n.cost := by
  obtain ⟨d, rfl⟩ : ∃ d, depth = d + 1 := ⟨depth - 1, by omega⟩
  have hf : n.state.is_finished = false := by
    cases mx <;> simp_all [State.is_finished, List.length_eq_zero]
  refine ⟨hf, ?_⟩
  cases mx <;> simp_all [Node.minimax]

/-- Witness for C7 at a concrete input: on the board with Black at `(0,0)`
and `(0,2)`, White (the maximizing side) has no legal moves while Black has
some; depth 1. -/
theorem minimax_side_without_moves_witness :
    (1 ≤ 1) ∧
      ((Node.mk b0).state.possible_grows (if true then Color.White else Color.Black) = []) ∧
      ((Node.mk b0).state.possible_grows (if true then Color.Black else Color.White) ≠ []) ∧
      ((Node.mk b0).state.is_finished = false ∧
        (Node.mk b0).minimax 1 true = (Node.mk b0).cost) :=
  ⟨by decide, by decide, by decide,
    minimax_side_without_moves (Node.mk b0) 1 true (by decide) (by decide) (by decide)⟩

/-! ### C8: empty root move list -/

/-- C8: if White has no legal moves (in particular on any fully terminal
position), `get_optimal_moves` returns the empty list. -/
theorem get_optimal_moves_no_moves (n : Node) (depth : Nat) (hd : 1 ≤ depth)
    (h : n.state.possible_grows Color.White = []) :
    n.get_optimal_moves depth = [] := by
  simp [Node.get_optimal_moves, h]

/-- Witness for C8 at a concrete input: the all-Empty board has no legal
White moves, and `get_optimal_moves` at depth 1 returns `[]`. -/
theorem get_optimal_moves_no_moves_witness :
    (1 ≤ 1) ∧ ((Node.mk State.new).state.possible_grows Color.White = []) ∧
      (Node.mk State.new).get_optimal_moves 1 = [] :=
  ⟨by decide, by decide,
    get_optimal_moves_no_moves (Node.mk State.new) 1 (by decide) (by decide)⟩

/-! ### C5: root move ranking -/

/-- C5: for depth ≥ 1 `get_optimal_moves` returns at most 5 pairs; each pair
consists of a legal White root move and the
`abnegamax(depth-1, i32::MIN, i32::MAX, -1)` score of the position derived
by playing it, and the pairs are ordered by descending score. -/
theorem get_optimal_moves_spec (n : Node) (depth : Nat) (hd : 1 ≤ depth) :
    (n.get_optimal_moves depth).length ≤ 5 ∧
      (∀ sc pos, (sc, pos) ∈ n.get_optimal_moves depth →
        pos ∈ n.state.possible_grows Color.White ∧
          sc = (n.withPos pos Color.White).abnegamax (depth - 1) i32MIN i32MAX (-1)) ∧
      (n.get_optimal_moves depth).Pairwise (fun a b => b.1 ≤ a.1) := by
  simp only [Node.get_optimal_moves]
  refine ⟨?_, ?_, ?_⟩
  · rw [List.length_take]
    exact Nat.min_le_left _ _
  · intro sc pos hmem
    have h1 := List.mem_mergeSort.mp (List.mem_of_mem_take hmem)
    obtain ⟨p, hp, heq⟩ := List.mem_map.mp h1
    obtain ⟨h2, h3⟩ := Prod.ext_iff.mp heq
    subst h3
    exact ⟨hp, h2.symm⟩
  · have hs :
        ((((n.state.possible_grows Color.White).map
              (fun pos =>
                ((n.withPos pos Color.White).abnegamax (depth - 1) i32MIN i32MAX (-1),
                  pos))).mergeSort (fun a b => decide (b.1 ≤ a.1))).Pairwise
          (fun a b => decide (b.1 ≤ a.1))) := by
      apply List.sorted_mergeSort
      · intro a b c hab hbc
        simp only [decide_eq_true_eq] at *
        exact le_trans hbc hab
      · intro a b
        simp only [Bool.or_eq_true, decide_eq_true_eq]
        exact Int.le_total b.1 a.1
    exact ((hs.sublist (List.take_sublist 5 _)).imp (fun h => of_decide_eq_true h))

/-- Witness for C5 at a concrete input: the board with White at `(0,0)` and
`(0,2)`, depth 1. -/
theorem get_optimal_moves_spec_witness :
    1 ≤ 1 ∧
      ((n0.get_optimal_moves 1).length ≤ 5 ∧
        (∀ sc pos, (sc, pos) ∈ n0.get_optimal_moves 1 →
          pos ∈ n0.state.possible_grows Color.White ∧
            sc = (n0.withPos pos Color.White).abnegamax (1 - 1) i32MIN i32MAX (-1)) ∧
        (n0.get_optimal_moves 1).Pairwise (fun a b => b.1 ≤ a.1)) :=
  ⟨Nat.le_refl 1, get_optimal_moves_spec n0 1 (Nat.le_refl 1)⟩

/-! ### C6: determinism and stable tie-break of the root ranking -/

/-- C6: the root ranking is a pure function of the state and depth (two runs
on the unmodified state yield identical ordering and scores — the parallel
fan-out of the source is order-preserving, so the embedding has no scheduling
nondeterminism to model), and equal-scoring entries appear in the move
generator's row-major order: for every score value, the result's entries
with that score form a prefix of the generator-ordered list of entries with
that score. -/
theorem get_optimal_moves_deterministic_and_stable :
    (∀ (n m : Node) (depth : Nat), n.state = m.state →
        n.get_optimal_moves depth = m.get_optimal_moves depth) ∧
      ∀ (n : Node) (depth : Nat) (v : Int),
        ((n.get_optimal_moves depth).filter (fun x => decide (x.1 = v))) <+:
          (((n.state.possible_grows Color.White).map
              (fun pos =>
                ((n.withPos pos Color.White).abnegamax (depth - 1) i32MIN i32MAX (-1),
                  pos))).filter (fun x => decide (x.1 = v))) := by
  constructor
  · intro n m depth h
    cases n
    cases m
    cases h
    rfl
  · intro n depth v
    have htrans : ∀ a b : Int × Position, ∀ c : Int × Position,
        (fun a b : Int × Position => decide (b.1 ≤ a.1)) a b →
          (fun a b : Int × Position => decide (b.1 ≤ a.1)) b c →
            (fun a b : Int × Position => decide (b.1 ≤ a.1)) a c := by
      intro a b c hab hbc
      simp only [decide_eq_true_eq] at *
      exact le_trans hbc hab
    have htotal : ∀ a b : Int × Position,
        ((fun a b : Int × Position => decide (b.1 ≤ a.1)) a b ||
          (fun a b : Int × Position => decide (b.1 ≤ a.1)) b a) := by
      intro a b
      simp only [Bool.or_eq_true, decide_eq_true_eq]
      exact Int.le_total b.1 a.1
    simp only [Node.get_optimal_moves]
    generalize ((n.state.possible_grows Color.White).map
        (fun pos =>
          ((n.withPos pos Color.White).abnegamax (depth - 1) i32MIN i32MAX (-1), pos))) = foo
    have hpair :
        ((foo.filter (fun x => decide (x.1 = v))).Pairwise
          (fun a b => decide (b.1 ≤ a.1))) := by
      apply List.pairwise_of_forall_mem_list
      intro a ha b hb
      have ha' := of_decide_eq_true (List.mem_filter.mp ha).2
      have hb' := of_decide_eq_true (List.mem_filter.mp hb).2
      simp only [decide_eq_true_eq, ha', hb']
      exact le_refl v
    have hsub1 :
        List.Sublist (foo.filter (fun x => decide (x.1 = v)))
          (foo.mergeSort (fun a b => decide (b.1 ≤ a.1))) :=
      List.sublist_mergeSort htrans htotal hpair (List.filter_sublist foo)
    have hself :
        ((foo.filter (fun x => decide (x.1 = v))).filter (fun x => decide (x.1 = v))) =
          foo.filter (fun x => decide (x.1 = v)) :=
      List.filter_eq_self.mpr (fun a ha => (List.mem_filter.mp ha).2)
    have hsub2 := hsub1.filter (fun x => decide (x.1 = v))
    rw [hself] at hsub2
    have hlen :
        (((foo.mergeSort (fun a b => decide (b.1 ≤ a.1))).filter
            (fun x => decide (x.1 = v))).length) =
          ((foo.filter (fun x => decide (x.1 = v))).length) :=
      ((List.mergeSort_perm foo _).filter _).length_eq
    have hkey :
        ((foo.mergeSort (fun a b => decide (b.1 ≤ a.1))).filter
            (fun x => decide (x.1 = v))) =
          foo.filter (fun x => decide (x.1 = v)) :=
      (hsub2.eq_of_length hlen.symm).symm
    refine ⟨((foo.mergeSort (fun a b => decide (b.1 ≤ a.1))).drop 5).filter
        (fun x => decide (x.1 = v)), ?_⟩
    rw [← List.filter_append, List.take_append_drop, hkey]

/-- Witness for C6 at a concrete input: the board with White at `(0,0)` and
`(0,2)`, depth 1, score value 6. -/
theorem get_optimal_moves_deterministic_and_stable_witness :
    (n0.state = n0.state ∧ n0.get_optimal_moves 1 = n0.get_optimal_moves 1) ∧
      ((n0.get_optimal_moves 1).filter (fun x => decide (x.1 = 6)) <+:
        (((n0.state.possible_grows Color.White).map
            (fun pos =>
              ((n0.withPos pos Color.White).abnegamax (1 - 1) i32MIN i32MAX (-1),
                pos))).filter (fun x => decide (x.1 = 6)))) :=
  ⟨⟨rfl, get_optimal_moves_deterministic_and_stable.1 n0 n0 1 rfl⟩,
    get_optimal_moves_deterministic_and_stable.2 n0 1 6⟩

/-! ### C10: the random opening generator never panics -/

theorem cells_nodup : cells.Nodup := by decide

theorem cells_length : cells.length = 81 := by decide

theorem choose_spec {l : List Position} (h : l ≠ []) (k : Nat) :
    ∃ p, choose l k = some p ∧ p ∈ l := by
  have hlen : 0 < l.length := List.length_pos.mpr h
  have hk : k % l.length < l.length := Nat.mod_lt _ hlen
  refine ⟨l[k % l.length], ?_, List.getElem_mem hk⟩
  simp [choose, h, List.getElem?_eq_getElem hk]

theorem mem_possible_places {s : State} {p : Position} (h : p ∈ s.possible_places) :
    p.1 < TABLE_SIZE ∧ p.2 < TABLE_SIZE ∧ s.table p.1 p.2 = Color.Empty := by
  obtain ⟨px, py⟩ := p
  obtain ⟨hc, hE⟩ := List.mem_filter.mp h
  obtain ⟨hx, hy⟩ := mem_cells.mp hc
  exact ⟨hx, hy, of_decide_eq_true hE⟩

theorem length_possible_places (s : State) :
    s.possible_places.length = countColor s Color.Empty := by
  simp [State.possible_places, countColor, List.countP_eq_length_filter]

theorem countColor_partition (s : State) :
    countColor s Color.Empty + countColor s Color.White + countColor s Color.Black = 81 := by
  have key : ∀ l : List Position,
      l.countP (fun p => decide (s.table p.1 p.2 = Color.Empty)) +
        l.countP (fun p => decide (s.table p.1 p.2 = Color.White)) +
        l.countP (fun p => decide (s.table p.1 p.2 = Color.Black)) = l.length := by
    intro l
    induction l with
    | nil => rfl
    | cons p rest ih =>
      rw [List.countP_cons, List.countP_cons, List.countP_cons, List.length_cons]
      cases h : s.table p.1 p.2 <;> simp [h] <;> omega
  exact (key cells).trans cells_length

theorem countP_update_succ {l : List Position} (hnd : l.Nodup) {a : Position}
    (ha : a ∈ l) {p q : Position → Bool}
    (hsame : ∀ x ∈ l, x ≠ a → p x = q x) (hpa : p a = false) (hqa : q a = true) :
    l.countP q = l.countP p + 1 := by
  induction l with
  | nil => cases ha
  | cons x rest ih =>
    rw [List.countP_cons, List.countP_cons]
    rcases List.mem_cons.mp ha with rfl | hmem
    · have hnotin : a ∉ rest := (List.nodup_cons.mp hnd).1
      have hrest : rest.countP p = rest.countP q := by
        apply List.countP_congr
        intro z hz
        rw [hsame z (List.mem_cons_of_mem _ hz) (fun hza => hnotin (hza ▸ hz))]
      rw [hrest, hpa, hqa]
      simp
    · have hxa : x ≠ a := by
        rintro rfl
        exact (List.nodup_cons.mp hnd).1 hmem
      have hx : p x = q x := hsame x (List.mem_cons_self x rest) hxa
      rw [hx, ih (List.nodup_cons.mp hnd).2 hmem
        (fun z hz hne => hsame z (List.mem_cons_of_mem _ hz) hne)]
      exact Nat.add_right_comm _ 1 _

theorem countColor_place_self {s : State} {x y : Nat} (hx : x < TABLE_SIZE)
    (hy : y < TABLE_SIZE) (hE : s.table x y = Color.Empty) {c : Color}
    (hc : c ≠ Color.Empty) :
    countColor (s.place x y c) c = countColor s c + 1 := by
  simp only [countColor]
  apply countP_update_succ cells_nodup (mem_cells.mpr ⟨hx, hy⟩)
  · intro z hz hne
    have hcond : ¬(z.1 = x ∧ z.2 = y) := by
      rintro ⟨h1, h2⟩
      exact hne (Prod.ext h1 h2)
    simp [State.place, hcond]
  · simp only [decide_eq_false_iff_not]
    rw [hE]
    exact fun h => hc h.symm
  · simp [State.place]

theorem countColor_place_other {s : State} (x y : Nat) {c c' : Color}
    (hE : s.table x y = Color.Empty) (hcc' : c' ≠ c) (hc'E : c' ≠ Color.Empty) :
    countColor (s.place x y c) c' = countColor s c' := by
  simp only [countColor]
  apply List.countP_congr
  intro z hz
  by_cases hcond : z.1 = x ∧ z.2 = y
  · obtain ⟨h1, h2⟩ := hcond
    subst h1
    subst h2
    simp only [State.place, and_self, if_true, if_pos, decide_eq_true_eq, hE]
    exact iff_of_false (fun h => hcc' h.symm) (fun h => hc'E h.symm)
  · simp [State.place, hcond]

theorem randomLoop_spec (pick : Nat → Nat) :
    ∀ (k step : Nat) (s : State),
      countColor s Color.White + countColor s Color.Black + 2 * k ≤ 81 →
      ∃ s', randomLoop pick k step s = some s' ∧
        countColor s' Color.White = countColor s Color.White + k ∧
        countColor s' Color.Black = countColor s Color.Black + k := by
  intro k
  induction k with
  | zero => exact fun step s _ => ⟨s, rfl, by omega, by omega⟩
  | succ k ih =>
    intro step s hle
    have hpart := countColor_partition s
    have hne : s.possible_places ≠ [] :=
      List.length_pos.mp (by rw [length_possible_places]; omega)
    obtain ⟨wp, hw, hwmem⟩ := choose_spec hne (pick step)
    obtain ⟨hwx, hwy, hwE⟩ := mem_possible_places hwmem
    have hW1 : countColor (s.place wp.1 wp.2 Color.White) Color.White =
        countColor s Color.White + 1 :=
      countColor_place_self hwx hwy hwE (by decide)
    have hB1 : countColor (s.place wp.1 wp.2 Color.White) Color.Black =
        countColor s Color.Black :=
      countColor_place_other wp.1 wp.2 hwE (by decide) (by decide)
    have hpart1 := countColor_partition (s.place wp.1 wp.2 Color.White)
    have hne1 : (s.place wp.1 wp.2 Color.White).possible_places ≠ [] :=
      List.length_pos.mp (by rw [length_possible_places]; omega)
    obtain ⟨bp, hb, hbmem⟩ := choose_spec hne1 (pick (step + 1))
    obtain ⟨hbx, hby, hbE⟩ := mem_possible_places hbmem
    have hB2 : countColor ((s.place wp.1 wp.2 Color.White).place bp.1 bp.2 Color.Black)
        Color.Black = countColor (s.place wp.1 wp.2 Color.White) Color.Black + 1 :=
      countColor_place_self hbx hby hbE (by decide)
    have hW2 : countColor ((s.place wp.1 wp.2 Color.White).place bp.1 bp.2 Color.Black)
        Color.White = countColor (s.place wp.1 wp.2 Color.White) Color.White :=
      countColor_place_other bp.1 bp.2 hbE (by decide) (by decide)
    obtain ⟨s', hs', hW', hB'⟩ :=
      ih (step + 2) ((s.place wp.1 wp.2 Color.White).place bp.1 bp.2 Color.Black) (by omega)
    refine ⟨s', ?_, by omega, by omega⟩
    simp only [randomLoop, hw, hb]
    exact hs'

/-- C10: `Node::random` always succeeds: whatever random indices the RNG
produces, every `choose` along the `2·(TABLE_SIZE−1)` alternating placements
finds a non-empty list of Empty cells (so the `unwrap` never panics), and
the resulting board holds exactly `TABLE_SIZE−1` White and `TABLE_SIZE−1`
Black stones. -/
theorem random_always_succeeds :
    ∀ pick : Nat → Nat, ∃ s : State,
      Node.random pick = some (Node.mk s) ∧
        countColor s Color.White = TABLE_SIZE - 1 ∧
        countColor s Color.Black = TABLE_SIZE - 1 := by
  intro pick
  have hW0 : countColor State.new Color.White = 0 := by decide
  have hB0 : countColor State.new Color.Black = 0 := by decide
  obtain ⟨s', h1, h2, h3⟩ := randomLoop_spec pick (TABLE_SIZE - 1) 0 State.new (by decide)
  refine ⟨s', ?_, by omega, by omega⟩
  show Option.map Node.mk (randomLoop pick (TABLE_SIZE - 1) 0 State.new) = _
  rw [h1]
  rfl

end Wongs
